import Mathlib

/-!
Shallow embedding of the trailing-stop trade simulator and stop-loss sweep of
`src/app.py`: the function `simuler_handel`, the sweep loop of the main
section, and the chart stop-loss line reconstruction. Prices are rationals;
a NaN field of a pandas row is modelled as `none`; a Python `None` date is
`none`. Dates are integers: the code only ever compares dates, so any linear
order works.
-/

namespace Trading

/-- One OHLC bar of the DataFrame. `none` models a NaN field. `opn` is the
`Open` column, which the simulator never reads. -/
structure Bar where
  date : ℤ
  opn : Option ℚ
  high : Option ℚ
  low : Option ℚ
  close : Option ℚ
deriving DecidableEq, Repr

/-- Result triple of `simuler_handel`: `(gevinst_andel, salgsdato, salgspris)`.
`none` in `gevinstPct` / `salgsPris` models a NaN float; `none` in
`salgsDato` models Python `None`. -/
structure Outcome where
  gevinstPct : Option ℚ
  salgsDato : Option ℤ
  salgsPris : Option ℚ
deriving DecidableEq, Repr

/-- The `for dato, row in periode_data.iterrows()` loop of `simuler_handel`
(src/app.py lines 149-162): walk the post-entry bars carrying the running
high `hoyeste` (`hoyeste_pris`), skip a bar whose `High` or `Low` is NaN,
update the running high with the current bar's `High` before the stop check,
and return `some outcome` as soon as the trailing stop triggers; `none` means
the loop finished without an exit. -/
def simLoop (kjopsPris stopLossPct : ℚ) : List Bar → ℚ → Option Outcome
  | [], _ => none
  | b :: rest, hoyeste =>
    match b.high, b.low with
    | some h, some l =>
      let hoyeste' := if h > hoyeste then h else hoyeste
      let stopNiva := hoyeste' * (1 - stopLossPct)
      if l ≤ stopNiva then
        some ⟨some ((stopNiva - kjopsPris) / kjopsPris), some b.date, some stopNiva⟩
      else
        simLoop kjopsPris stopLossPct rest hoyeste'
    | _, _ => simLoop kjopsPris stopLossPct rest hoyeste

/-- `simuler_handel` (src/app.py lines 137-167): restrict to bars strictly
after the entry date, return `(0.0, None, 0.0)` when that subsequence is
empty, otherwise walk it with `simLoop`; when no stop triggers, fall back to
the close of the last post-entry bar (read without a NaN guard, line 164). -/
def simuler_handel (df : List Bar) (kjopsDato : ℤ) (kjopsPris stopLossPct : ℚ) :
    Outcome :=
  let periodeData := df.filter (fun b => decide (b.date > kjopsDato))
  match periodeData.getLast? with
  | none => ⟨some 0, none, some 0⟩
  | some lastBar =>
    match simLoop kjopsPris stopLossPct periodeData kjopsPris with
    | some out => out
    | none =>
      ⟨lastBar.close.map (fun c => (c - kjopsPris) / kjopsPris),
       some lastBar.date, lastBar.close⟩

/-- The running high carried past a list of bars by the loop of
`simuler_handel`: NaN bars are skipped, otherwise the high updates exactly as
in src/app.py lines 153-154. -/
def hwmFold : List Bar → ℚ → ℚ
  | [], hoyeste => hoyeste
  | b :: rest, hoyeste =>
    match b.high, b.low with
    | some h, some _ => hwmFold rest (if h > hoyeste then h else hoyeste)
    | _, _ => hwmFold rest hoyeste

/-- `true` iff no bar of the list triggers the trailing stop when the walk of
`simuler_handel` starts from running high `hoyeste`: every non-NaN bar has
`Low` strictly above the stop level computed from the same-bar-updated high. -/
def noBarTriggers (stopLossPct : ℚ) : List Bar → ℚ → Bool
  | [], _ => true
  | b :: rest, hoyeste =>
    match b.high, b.low with
    | some h, some l =>
      let hoyeste' := if h > hoyeste then h else hoyeste
      decide (hoyeste' * (1 - stopLossPct) < l) &&
        noBarTriggers stopLossPct rest hoyeste'
    | _, _ => noBarTriggers stopLossPct rest hoyeste

/-- The running highs observed by the walk of `simuler_handel`, one entry per
processed (non-NaN) bar, each recorded after the same-bar update of
src/app.py lines 153-154; the walk stops at the first bar that triggers the
stop, so that bar's high is the last entry. -/
def simHwms (stopLossPct : ℚ) : List Bar → ℚ → List ℚ
  | [], _ => []
  | b :: rest, hoyeste =>
    match b.high, b.low with
    | some h, some l =>
      let hoyeste' := if h > hoyeste then h else hoyeste
      if l ≤ hoyeste' * (1 - stopLossPct) then [hoyeste']
      else hoyeste' :: simHwms stopLossPct rest hoyeste'
    | _, _ => simHwms stopLossPct rest hoyeste

/-- The `(date, stop level)` pairs computed by the walk of `simuler_handel`,
one per processed (non-NaN) bar up to and including the bar that triggers the
stop: `stop_niva = hoyeste_pris * (1 - stop_loss_pct)` of src/app.py
line 156. -/
def simStops (stopLossPct : ℚ) : List Bar → ℚ → List (ℤ × ℚ)
  | [], _ => []
  | b :: rest, hoyeste =>
    match b.high, b.low with
    | some h, some l =>
      let hoyeste' := if h > hoyeste then h else hoyeste
      let stopNiva := hoyeste' * (1 - stopLossPct)
      if l ≤ stopNiva then [(b.date, stopNiva)]
      else (b.date, stopNiva) :: simStops stopLossPct rest hoyeste'
    | _, _ => simStops stopLossPct rest hoyeste

/-- State of the sweep loop of src/app.py lines 224-246: the running best
(`best_gevinst`, `best_sl`, `best_salgsdato`, `best_salgspris`) and the
accumulated `results` rows `(Stop Loss %, Gevinst %)`. -/
structure SweepState where
  bestGevinst : ℚ
  bestSl : ℕ
  bestSalgsDato : Option ℤ
  bestSalgsPris : Option ℚ
  results : List (ℕ × Option ℚ)
deriving DecidableEq, Repr

/-- Initial sweep state (src/app.py lines 224-228): `best_gevinst = -100.0`,
`best_sl = 0`, `best_salgsdato = None`, `best_salgspris = 0.0`,
`results = []`. -/
def initSweep : SweepState := ⟨-100, 0, none, some 0, []⟩

/-- One iteration of the sweep loop (src/app.py lines 235-244): simulate at
`sl / 100`, append `(sl, g * 100)` to results, and update the best quadruple
when `g > best_gevinst`. A NaN `g` (modelled `none`) compares false in
Python, so it never updates the best. -/
def sweepStep (df : List Bar) (kjopsDato : ℤ) (kjopsPris : ℚ)
    (st : SweepState) (sl : ℕ) : SweepState :=
  let out := simuler_handel df kjopsDato kjopsPris ((sl : ℚ) / 100)
  let results' := st.results ++ [(sl, out.gevinstPct.map (fun g => g * 100))]
  match out.gevinstPct with
  | some g =>
    if g > st.bestGevinst then
      ⟨g, sl, out.salgsDato, out.salgsPris, results'⟩
    else
      ⟨st.bestGevinst, st.bestSl, st.bestSalgsDato, st.bestSalgsPris, results'⟩
  | none => ⟨st.bestGevinst, st.bestSl, st.bestSalgsDato, st.bestSalgsPris, results'⟩

/-- The full sweep of src/app.py lines 232-246: `range(r_start, r_end + 1)`
walked in ascending order from the initial state. -/
def sweep (df : List Bar) (kjopsDato : ℤ) (kjopsPris : ℚ) (lo hi : ℕ) :
    SweepState :=
  (List.range' lo (hi + 1 - lo)).foldl (sweepStep df kjopsDato kjopsPris) initSweep

/-- The simulated return fraction of the candidate percent `sl`. -/
def gval (df : List Bar) (kjopsDato : ℤ) (kjopsPris : ℚ) (sl : ℕ) : Option ℚ :=
  (simuler_handel df kjopsDato kjopsPris ((sl : ℚ) / 100)).gevinstPct

/-- The chart stop-loss line loop of src/app.py lines 285-300: one entry per
bar of the full DataFrame, `none` (NaN) before the entry date or on a NaN
`High`, otherwise the stop level from a running high that — unlike the
simulator's walk — also processes the entry-date bar itself and ignores
whether `Low` is NaN. -/
def slLineLoop (bestSl : ℕ) (optimalDato : ℤ) : List Bar → ℚ → List (Option ℚ)
  | [], _ => []
  | b :: rest, hoyeste =>
    if b.date < optimalDato then
      none :: slLineLoop bestSl optimalDato rest hoyeste
    else
      match b.high with
      | none => none :: slLineLoop bestSl optimalDato rest hoyeste
      | some h =>
        let hoyeste' := if h > hoyeste then h else hoyeste
        some (hoyeste' * (1 - (bestSl : ℚ) / 100)) ::
          slLineLoop bestSl optimalDato rest hoyeste'

/-- The reconstructed `Stop Loss Linje` column: the loop of src/app.py
lines 282-300 started from `hoyeste = optimal_pris`. -/
def slLine (df : List Bar) (optimalDato : ℤ) (optimalPris : ℚ) (bestSl : ℕ) :
    List (Option ℚ) :=
  slLineLoop bestSl optimalDato df optimalPris

/-- The chart reconstruction agrees with the simulator: every bar of the
DataFrame whose date carries a simulator stop level (a bar the simulator's
walk processed) has that same stop level in the reconstructed line. -/
def reconAgrees (df : List Bar) (optimalDato : ℤ) (optimalPris : ℚ)
    (bestSl : ℕ) : Prop :=
  ∀ pr ∈ List.zip df (slLine df optimalDato optimalPris bestSl),
    ∀ q ∈ simStops ((bestSl : ℚ) / 100)
        (df.filter (fun b => decide (b.date > optimalDato))) optimalPris,
      pr.1.date = q.1 → pr.2 = some q.2

/-- Scaling of every price field of a bar by `c` (the date is unchanged). -/
def scaleBar (c : ℚ) (b : Bar) : Bar :=
  ⟨b.date, b.opn.map (fun x => c * x), b.high.map (fun x => c * x),
   b.low.map (fun x => c * x), b.close.map (fun x => c * x)⟩

/-- A bar whose high, low and close are present and positive — the PriceBar
data-model invariant. -/
def ValidBar (b : Bar) : Prop :=
  (∃ h, b.high = some h ∧ 0 < h) ∧ (∃ l, b.low = some l ∧ 0 < l) ∧
    (∃ c, b.close = some c ∧ 0 < c)

/-- Two-bar series on which the chart reconstruction diverges from the
simulator: the entry-date bar's high (20) exceeds the entry price (10), and
the reconstruction — unlike the simulator — processes that bar. -/
def reconCx : List Bar :=
  [⟨0, none, some 20, some 9, some 10⟩, ⟨1, none, some 5, some 5, some 5⟩]

/-! ## Helper lemmas -/

/-- A `getLast?` value is a member of the list. -/
theorem last_mem {α : Type} {l : List α} {a : α} (h : l.getLast? = some a) :
    a ∈ l := by
  have hne : l ≠ [] := by rintro rfl; simp at h
  have h2 := List.getLast?_eq_getLast l hne
  rw [h2, Option.some_inj] at h
  rw [← h]
  exact List.getLast_mem _

/-- Walking a concatenation whose first part never triggers the stop reduces
to walking the second part from the carried running high. -/
theorem simLoop_append (p pct : ℚ) (pre : List Bar) :
    ∀ (L : List Bar) (h0 : ℚ), noBarTriggers pct pre h0 = true →
      simLoop p pct (pre ++ L) h0 = simLoop p pct L (hwmFold pre h0) := by
  induction pre with
  | nil => intro L h0 _; simp [hwmFold]
  | cons b pre ih =>
    intro L h0 htr
    rcases b with ⟨d, o, hi, lo, cl⟩
    cases hi with
    | none =>
      simp only [noBarTriggers] at htr
      simpa [simLoop, hwmFold] using ih L h0 htr
    | some h =>
      cases lo with
      | none =>
        simp only [noBarTriggers] at htr
        simpa [simLoop, hwmFold] using ih L h0 htr
      | some l =>
        simp only [noBarTriggers, Bool.and_eq_true, decide_eq_true_eq] at htr
        obtain ⟨hlt, htr'⟩ := htr
        have hnle : ¬ l ≤ (if h > h0 then h else h0) * (1 - pct) := not_le.mpr hlt
        simp only [List.cons_append, simLoop, hwmFold]
        rw [if_neg hnle]
        exact ih L _ htr'

/-- When no bar of the list triggers the stop, the walk returns `none`. -/
theorem simLoop_none (p pct : ℚ) (L : List Bar) :
    ∀ h0 : ℚ, noBarTriggers pct L h0 = true → simLoop p pct L h0 = none := by
  induction L with
  | nil => intro h0 _; rfl
  | cons b rest ih =>
    intro h0 htr
    rcases b with ⟨d, o, hi, lo, cl⟩
    cases hi with
    | none =>
      simp only [noBarTriggers] at htr
      simpa [simLoop] using ih h0 htr
    | some h =>
      cases lo with
      | none =>
        simp only [noBarTriggers] at htr
        simpa [simLoop] using ih h0 htr
      | some l =>
        simp only [noBarTriggers, Bool.and_eq_true, decide_eq_true_eq] at htr
        obtain ⟨hlt, htr'⟩ := htr
        have hnle : ¬ l ≤ (if h > h0 then h else h0) * (1 - pct) := not_le.mpr hlt
        simp only [simLoop]
        rw [if_neg hnle]
        exact ih _ htr'

/-! ## C1: same-bar update-then-check -/

/-- C1: for any bar of the post-entry subsequence reached without an earlier
trigger, whose `High` and `Low` are numbers, whose `High` exceeds the carried
running high, and whose `Low` is at or below the stop level computed from that
same bar's new high, `simuler_handel` exits on that very bar at the computed
stop level with return `(stopLevel - entryPrice) / entryPrice` — whatever bars
follow (none of them is evaluated). -/
theorem same_bar_update_then_check (df : List Bar) (dato : ℤ) (p pct : ℚ)
    (pre : List Bar) (b : Bar) (rest : List Bar) (h l : ℚ)
    (hsplit : df.filter (fun x => decide (x.date > dato)) = pre ++ b :: rest)
    (hpre : noBarTriggers pct pre p = true)
    (hh : b.high = some h) (hl : b.low = some l)
    (hup : hwmFold pre p < h) (hst : l ≤ h * (1 - pct)) :
    simuler_handel df dato p pct =
      ⟨some ((h * (1 - pct) - p) / p), some b.date, some (h * (1 - pct))⟩ := by
  have hloop : simLoop p pct (pre ++ b :: rest) p =
      some ⟨some ((h * (1 - pct) - p) / p), some b.date, some (h * (1 - pct))⟩ := by
    rw [simLoop_append p pct pre _ p hpre]
    rcases b with ⟨d, o, hi, lo, cl⟩
    obtain rfl : hi = some h := hh
    obtain rfl : lo = some l := hl
    simp [simLoop, gt_iff_lt, hup, hst]
  have hne : (pre ++ b :: rest) ≠ [] := by simp
  obtain ⟨lb, hlb⟩ :=
    Option.ne_none_iff_exists'.mp
      (fun hc => hne (List.getLast?_eq_none_iff.mp hc))
  simp [simuler_handel, hsplit, hlb, hloop]

/-- Witness for C1: entry price 10, one post-entry bar with high 12 and
low 9, 20 % stop: the bar exits at `12 * (1 - 1/5)`. -/
theorem same_bar_update_then_check_witness :
    hwmFold [] 10 < 12 ∧ (9 : ℚ) ≤ 12 * (1 - 1/5) ∧
    simuler_handel [⟨1, none, some 12, some 9, some 10⟩] 0 10 (1/5) =
      ⟨some ((12 * (1 - 1/5) - 10) / 10), some 1, some (12 * (1 - 1/5))⟩ :=
  ⟨by norm_num [hwmFold], by norm_num,
    same_bar_update_then_check [⟨1, none, some 12, some 9, some 10⟩] 0 10 (1/5)
      [] ⟨1, none, some 12, some 9, some 10⟩ [] 12 9 rfl rfl rfl rfl
      (by norm_num [hwmFold]) (by norm_num)⟩

/-! ## C2: held-to-end fallback -/

/-- C2: when the post-entry subsequence is non-empty and no bar of it ever
satisfies `Low ≤ stop level`, `simuler_handel` returns the held-to-end
outcome: exit price = the close of the last post-entry bar, exit date = that
bar's date, return `(close - entryPrice) / entryPrice`. -/
theorem held_to_end (df : List Bar) (dato : ℤ) (p pct : ℚ) (lastBar : Bar)
    (c : ℚ)
    (hlast : (df.filter (fun x => decide (x.date > dato))).getLast? =
      some lastBar)
    (hno : noBarTriggers pct (df.filter (fun x => decide (x.date > dato))) p =
      true)
    (hc : lastBar.close = some c) :
    simuler_handel df dato p pct =
      ⟨some ((c - p) / p), some lastBar.date, some c⟩ := by
  have hnone := simLoop_none p pct _ p hno
  simp [simuler_handel, hlast, hnone, hc]

/-- Witness for C2: one post-entry bar that never dips to the stop; the trade
is held to its close 11. -/
theorem held_to_end_witness :
    (⟨1, none, some 12, some 11, some 11⟩ : Bar).close = some 11 ∧
    simuler_handel [⟨1, none, some 12, some 11, some 11⟩] 0 10 (1/5) =
      ⟨some ((11 - 10) / 10), some 1, some 11⟩ :=
  ⟨rfl, held_to_end [⟨1, none, some 12, some 11, some 11⟩] 0 10 (1/5)
    ⟨1, none, some 12, some 11, some 11⟩ 11 rfl (by norm_num [noBarTriggers])
    rfl⟩

/-! ## C10: totality and NaN close propagation -/

/-- C10: `simuler_handel` is total (it is a Lean function, defined on every
input); in the held-to-end branch the last post-entry bar's close is read
without a NaN guard, so a NaN close yields a NaN return fraction and NaN
exit price — a value, not an exception — even when every post-entry bar was
skipped during the walk. -/
theorem nan_close_propagates (df : List Bar) (dato : ℤ) (p pct : ℚ)
    (lastBar : Bar)
    (hlast : (df.filter (fun x => decide (x.date > dato))).getLast? =
      some lastBar)
    (hno : noBarTriggers pct (df.filter (fun x => decide (x.date > dato))) p =
      true)
    (hc : lastBar.close = none) :
    simuler_handel df dato p pct = ⟨none, some lastBar.date, none⟩ := by
  have hnone := simLoop_none p pct _ p hno
  simp [simuler_handel, hlast, hnone, hc]

/-- Witness for C10: a series whose only post-entry bar has NaN high, low and
close; the bar is skipped by the walk, yet the fallback reads its NaN close
and returns NaN values. -/
theorem nan_close_propagates_witness :
    (⟨1, none, none, none, none⟩ : Bar).close = none ∧
    simuler_handel [⟨1, none, none, none, none⟩] 0 10 (1/5) =
      ⟨none, some 1, none⟩ :=
  ⟨rfl, nan_close_propagates [⟨1, none, none, none, none⟩] 0 10 (1/5)
    ⟨1, none, none, none, none⟩ rfl (by norm_num [noBarTriggers]) rfl⟩

/-! ## C5: NaN bars are skipped with state carried forward -/

/-- C5: in `simuler_handel`, a bar whose `High` or `Low` is NaN is skipped
entirely: the walk on `bar :: rest` equals the walk on `rest` with the running
high unchanged, no exit check happens on the bar, and (the functions being
total) no exception arises. -/
theorem nan_bar_skipped (p pct hoyeste : ℚ) (b : Bar) (rest : List Bar)
    (hnan : b.high = none ∨ b.low = none) :
    simLoop p pct (b :: rest) hoyeste = simLoop p pct rest hoyeste ∧
    simHwms pct (b :: rest) hoyeste = simHwms pct rest hoyeste := by
  rcases b with ⟨d, o, hi, lo, cl⟩
  rcases hnan with h | h
  · obtain rfl : hi = none := h
    cases lo <;> simp [simLoop, simHwms]
  · obtain rfl : lo = none := h
    cases hi <;> simp [simLoop, simHwms]

/-- Witness for C5 at a concrete all-NaN bar. -/
theorem nan_bar_skipped_witness :
    simLoop 1 (1/2) [⟨0, none, none, none, none⟩] 1 = simLoop 1 (1/2) [] 1 ∧
    simHwms (1/2) [⟨0, none, none, none, none⟩] 1 = simHwms (1/2) [] 1 :=
  nan_bar_skipped 1 (1/2) 1 ⟨0, none, none, none, none⟩ [] (Or.inl rfl)

/-! ## C4: monotone high-water mark -/

/-- The running high never exceeds its same-bar update. -/
theorem le_update (h h0 : ℚ) : h0 ≤ if h > h0 then h else h0 := by
  by_cases hgt : h > h0
  · rw [if_pos hgt]; exact le_of_lt hgt
  · rw [if_neg hgt]

/-- Unfolding equation of `simHwms` on a NaN-`High` bar. -/
theorem simHwms_cons_nanHigh (pct h0 : ℚ) (d : ℤ) (o lo cl : Option ℚ)
    (rest : List Bar) :
    simHwms pct (⟨d, o, none, lo, cl⟩ :: rest) h0 = simHwms pct rest h0 := by
  cases lo <;> rfl

/-- Unfolding equation of `simHwms` on a NaN-`Low` bar. -/
theorem simHwms_cons_nanLow (pct h0 : ℚ) (d : ℤ) (o hi cl : Option ℚ)
    (rest : List Bar) :
    simHwms pct (⟨d, o, hi, none, cl⟩ :: rest) h0 = simHwms pct rest h0 := by
  cases hi <;> rfl

/-- Unfolding equation of `simHwms` on a numeric bar. -/
theorem simHwms_cons (pct h0 : ℚ) (d : ℤ) (o cl : Option ℚ) (h l : ℚ)
    (rest : List Bar) :
    simHwms pct (⟨d, o, some h, some l, cl⟩ :: rest) h0 =
      if l ≤ (if h > h0 then h else h0) * (1 - pct) then
        [if h > h0 then h else h0]
      else
        (if h > h0 then h else h0) ::
          simHwms pct rest (if h > h0 then h else h0) := rfl

/-- The high-water-mark sequence of a walk is a non-decreasing chain from its
starting value. -/
theorem simHwms_chain (pct : ℚ) (L : List Bar) :
    ∀ h0 : ℚ, List.Chain' (· ≤ ·) (h0 :: simHwms pct L h0) := by
  induction L with
  | nil => intro h0; exact List.chain'_singleton h0
  | cons b rest ih =>
    intro h0
    rcases b with ⟨d, o, hi, lo, cl⟩
    cases hi with
    | none => rw [simHwms_cons_nanHigh]; exact ih h0
    | some h =>
      cases lo with
      | none => rw [simHwms_cons_nanLow]; exact ih h0
      | some l =>
        rw [simHwms_cons]
        by_cases hle : l ≤ (if h > h0 then h else h0) * (1 - pct)
        · rw [if_pos hle]
          exact List.chain'_cons.mpr ⟨le_update h h0, List.chain'_singleton _⟩
        · rw [if_neg hle]
          exact List.chain'_cons.mpr ⟨le_update h h0, ih _⟩

/-- Every recorded high-water mark is at least the starting value. -/
theorem simHwms_ge (pct : ℚ) (L : List Bar) :
    ∀ h0 : ℚ, ∀ x ∈ simHwms pct L h0, h0 ≤ x := by
  induction L with
  | nil => intro h0 x hx; simp [simHwms] at hx
  | cons b rest ih =>
    intro h0 x hx
    rcases b with ⟨d, o, hi, lo, cl⟩
    cases hi with
    | none => exact ih h0 x (by rwa [simHwms_cons_nanHigh] at hx)
    | some h =>
      cases lo with
      | none => exact ih h0 x (by rwa [simHwms_cons_nanLow] at hx)
      | some l =>
        rw [simHwms_cons] at hx
        by_cases hle : l ≤ (if h > h0 then h else h0) * (1 - pct)
        · rw [if_pos hle, List.mem_singleton] at hx
          rw [hx]; exact le_update h h0
        · rw [if_neg hle, List.mem_cons] at hx
          rcases hx with rfl | hx
          · exact le_update h h0
          · exact le_trans (le_update h h0) (ih _ x hx)

/-- Every recorded high-water mark is the starting value or the high of some
bar of the walked list. -/
theorem simHwms_src (pct : ℚ) (L : List Bar) :
    ∀ h0 : ℚ, ∀ x ∈ simHwms pct L h0, x = h0 ∨ ∃ b ∈ L, b.high = some x := by
  induction L with
  | nil => intro h0 x hx; simp [simHwms] at hx
  | cons b rest ih =>
    intro h0 x hx
    rcases b with ⟨d, o, hi, lo, cl⟩
    cases hi with
    | none =>
      rw [simHwms_cons_nanHigh] at hx
      exact (ih h0 x hx).imp id
        (fun ⟨b', hb', he⟩ => ⟨b', List.mem_cons_of_mem _ hb', he⟩)
    | some h =>
      cases lo with
      | none =>
        rw [simHwms_cons_nanLow] at hx
        exact (ih h0 x hx).imp id
          (fun ⟨b', hb', he⟩ => ⟨b', List.mem_cons_of_mem _ hb', he⟩)
      | some l =>
        have hupd : (if h > h0 then h else h0) = h0 ∨
            (⟨d, o, some h, some l, cl⟩ : Bar).high =
              some (if h > h0 then h else h0) := by
          by_cases hgt : h > h0
          · exact Or.inr (by rw [if_pos hgt])
          · exact Or.inl (by rw [if_neg hgt])
        rw [simHwms_cons] at hx
        by_cases hle : l ≤ (if h > h0 then h else h0) * (1 - pct)
        · rw [if_pos hle, List.mem_singleton] at hx
          subst hx
          exact hupd.imp id (fun he => ⟨_, List.mem_cons_self _ _, he⟩)
        · rw [if_neg hle, List.mem_cons] at hx
          rcases hx with rfl | hx
          · exact hupd.imp id (fun he => ⟨_, List.mem_cons_self _ _, he⟩)
          · rcases ih _ x hx with hx0 | ⟨b', hb', he⟩
            · rcases hupd with h1 | h1
              · exact Or.inl (hx0.trans h1)
              · exact Or.inr ⟨_, List.mem_cons_self _ _, hx0 ▸ h1⟩
            · exact Or.inr ⟨b', List.mem_cons_of_mem _ hb', he⟩

/-- C4: during a simulation with `entryPrice > 0` and a stop-loss fraction in
`(0,1)`, the high-water-mark sequence starting at the entry price is
monotonically non-decreasing, each mark is the entry price or a bar's high,
the stop level `mark * (1 - fraction)` never exceeds the mark, and the stop
levels themselves never decrease. -/
theorem hwm_monotone (df : List Bar) (dato : ℤ) (p pct : ℚ)
    (hp : 0 < p) (hpc0 : 0 < pct) (hpc1 : pct < 1) :
    List.Chain' (· ≤ ·)
      (p :: simHwms pct (df.filter (fun b => decide (b.date > dato))) p) ∧
    (∀ x ∈ simHwms pct (df.filter (fun b => decide (b.date > dato))) p,
      x = p ∨ ∃ b ∈ df, b.high = some x) ∧
    (∀ x ∈ p :: simHwms pct (df.filter (fun b => decide (b.date > dato))) p,
      x * (1 - pct) ≤ x) ∧
    List.Chain' (· ≤ ·)
      ((p :: simHwms pct (df.filter (fun b => decide (b.date > dato))) p).map
        (fun x => x * (1 - pct))) := by
  refine ⟨simHwms_chain pct _ p, ?_, ?_, ?_⟩
  · intro x hx
    exact (simHwms_src pct _ p x hx).imp id
      (fun ⟨b, hb, he⟩ => ⟨b, List.mem_of_mem_filter hb, he⟩)
  · intro x hx
    have hxpos : 0 < x := by
      rcases List.mem_cons.mp hx with rfl | hx'
      · exact hp
      · exact lt_of_lt_of_le hp (simHwms_ge pct _ p x hx')
    exact mul_le_of_le_one_right (le_of_lt hxpos) (by linarith)
  · exact (List.chain'_map _).mpr
      ((simHwms_chain pct _ p).imp
        (fun a b hab => mul_le_mul_of_nonneg_right hab (by linarith)))

/-- Witness for C4 at a concrete one-bar series. -/
theorem hwm_monotone_witness :
    List.Chain' (· ≤ ·)
      ((10 : ℚ) ::
        simHwms (1/5)
          (List.filter (fun b => decide (b.date > 0))
            [⟨1, none, some 12, some 11, some 11⟩]) 10) ∧
    (∀ x ∈ simHwms (1/5)
        (List.filter (fun b => decide (b.date > 0))
          [⟨1, none, some 12, some 11, some 11⟩]) 10,
      x = 10 ∨ ∃ b ∈ [(⟨1, none, some 12, some 11, some 11⟩ : Bar)],
        b.high = some x) ∧
    (∀ x ∈ (10 : ℚ) ::
        simHwms (1/5)
          (List.filter (fun b => decide (b.date > 0))
            [⟨1, none, some 12, some 11, some 11⟩]) 10,
      x * (1 - 1/5) ≤ x) ∧
    List.Chain' (· ≤ ·)
      (((10 : ℚ) ::
        simHwms (1/5)
          (List.filter (fun b => decide (b.date > 0))
            [⟨1, none, some 12, some 11, some 11⟩]) 10).map
        (fun x => x * (1 - 1/5))) :=
  hwm_monotone [⟨1, none, some 12, some 11, some 11⟩] 0 10 (1/5)
    (by norm_num) (by norm_num) (by norm_num)

/-! ## C8: scale invariance -/

/-- Unfolding equation of `simLoop` on a NaN-`High` bar. -/
theorem simLoop_cons_nanHigh (p pct h0 : ℚ) (d : ℤ) (o lo cl : Option ℚ)
    (rest : List Bar) :
    simLoop p pct (⟨d, o, none, lo, cl⟩ :: rest) h0 = simLoop p pct rest h0 := by
  cases lo <;> rfl

/-- Unfolding equation of `simLoop` on a NaN-`Low` bar. -/
theorem simLoop_cons_nanLow (p pct h0 : ℚ) (d : ℤ) (o hi cl : Option ℚ)
    (rest : List Bar) :
    simLoop p pct (⟨d, o, hi, none, cl⟩ :: rest) h0 = simLoop p pct rest h0 := by
  cases hi <;> rfl

/-- Unfolding equation of `simLoop` on a numeric bar. -/
theorem simLoop_cons (p pct h0 : ℚ) (d : ℤ) (o cl : Option ℚ) (h l : ℚ)
    (rest : List Bar) :
    simLoop p pct (⟨d, o, some h, some l, cl⟩ :: rest) h0 =
      if l ≤ (if h > h0 then h else h0) * (1 - pct) then
        some ⟨some (((if h > h0 then h else h0) * (1 - pct) - p) / p), some d,
              some ((if h > h0 then h else h0) * (1 - pct))⟩
      else simLoop p pct rest (if h > h0 then h else h0) := rfl

/-- Scaling all prices and the entry price by `c > 0` scales the walk: the
outcome keeps its return fraction and exit date, and its exit price scales
by `c`. -/
theorem simLoop_scale (c p pct : ℚ) (hc : 0 < c) (L : List Bar) :
    ∀ h0 : ℚ, simLoop (c * p) pct (L.map (scaleBar c)) (c * h0) =
      (simLoop p pct L h0).map
        (fun o => ⟨o.gevinstPct, o.salgsDato,
          o.salgsPris.map (fun x => c * x)⟩) := by
  induction L with
  | nil => intro h0; rfl
  | cons b rest ih =>
    intro h0
    rcases b with ⟨d, o, hi, lo, cl⟩
    cases hi with
    | none =>
      simp only [List.map_cons, scaleBar, Option.map_none']
      rw [simLoop_cons_nanHigh, simLoop_cons_nanHigh]
      exact ih h0
    | some h =>
      cases lo with
      | none =>
        simp only [List.map_cons, scaleBar, Option.map_none', Option.map_some']
        rw [simLoop_cons_nanLow, simLoop_cons_nanLow]
        exact ih h0
      | some l =>
        simp only [List.map_cons, scaleBar, Option.map_some']
        rw [simLoop_cons, simLoop_cons]
        have hiff : c * h > c * h0 ↔ h > h0 := mul_lt_mul_left hc
        have hupd : (if c * h > c * h0 then c * h else c * h0) =
            c * (if h > h0 then h else h0) := by
          by_cases hgt : h > h0
          · rw [if_pos (hiff.mpr hgt), if_pos hgt]
          · rw [if_neg (fun hcon => hgt (hiff.mp hcon)), if_neg hgt]
        rw [hupd]
        set u := if h > h0 then h else h0 with hu
        have hstop : c * u * (1 - pct) = c * (u * (1 - pct)) := by ring
        rw [hstop]
        have hcmp : c * l ≤ c * (u * (1 - pct)) ↔ l ≤ u * (1 - pct) :=
          mul_le_mul_left hc
        by_cases htr : l ≤ u * (1 - pct)
        · rw [if_pos (hcmp.mpr htr), if_pos htr]
          have hg : (c * (u * (1 - pct)) - c * p) / (c * p) =
              (u * (1 - pct) - p) / p := by
            rw [← mul_sub, mul_div_mul_left _ _ (ne_of_gt hc)]
          simp [hg]
        · rw [if_neg (fun hcon => htr (hcmp.mp hcon)), if_neg htr]
          exact ih u

/-- Filtering post-entry bars commutes with price scaling (dates are
unchanged). -/
theorem filter_scale (c : ℚ) (dato : ℤ) (df : List Bar) :
    (df.map (scaleBar c)).filter (fun b => decide (b.date > dato)) =
      (df.filter (fun b => decide (b.date > dato))).map (scaleBar c) := by
  rw [List.filter_map]
  rfl

/-- C8: multiplying every price field of every bar and the entry price by a
positive constant leaves both the return fraction and the exit date of
`simuler_handel` unchanged. -/
theorem scale_invariance (df : List Bar) (dato : ℤ) (p pct c : ℚ)
    (hc : 0 < c) :
    (simuler_handel (df.map (scaleBar c)) dato (c * p) pct).gevinstPct =
      (simuler_handel df dato p pct).gevinstPct ∧
    (simuler_handel (df.map (scaleBar c)) dato (c * p) pct).salgsDato =
      (simuler_handel df dato p pct).salgsDato := by
  have hdiv : ∀ x : ℚ, (c * x - c * p) / (c * p) = (x - p) / p := by
    intro x
    rw [← mul_sub, mul_div_mul_left _ _ (ne_of_gt hc)]
  have hfull : simuler_handel (df.map (scaleBar c)) dato (c * p) pct =
      (fun o : Outcome => ⟨o.gevinstPct, o.salgsDato,
        o.salgsPris.map (fun x => c * x)⟩) (simuler_handel df dato p pct) := by
    unfold simuler_handel
    rw [filter_scale]
    dsimp only
    rw [List.getLast?_map]
    cases hgl : (df.filter (fun b => decide (b.date > dato))).getLast? with
    | none => simp
    | some lb =>
      simp only [Option.map_some']
      rw [simLoop_scale c p pct hc _ p]
      cases hsl :
          simLoop p pct (df.filter (fun b => decide (b.date > dato))) p with
      | some out => simp
      | none =>
        simp only [Option.map_none']
        cases hcl : lb.close with
        | none => simp [scaleBar, hcl]
        | some x => simp [scaleBar, hcl, hdiv x]
  rw [hfull]
  exact ⟨rfl, rfl⟩

/-- Witness for C8: doubling all prices of a one-bar series and the entry
price preserves return fraction and exit date. -/
theorem scale_invariance_witness :
    (0 : ℚ) < 2 ∧
    ((simuler_handel ([⟨1, none, some 12, some 9, some 10⟩].map (scaleBar 2))
        0 (2 * 10) (1/5)).gevinstPct =
      (simuler_handel [⟨1, none, some 12, some 9, some 10⟩] 0 10
        (1/5)).gevinstPct ∧
    (simuler_handel ([⟨1, none, some 12, some 9, some 10⟩].map (scaleBar 2))
        0 (2 * 10) (1/5)).salgsDato =
      (simuler_handel [⟨1, none, some 12, some 9, some 10⟩] 0 10
        (1/5)).salgsDato) :=
  ⟨by norm_num,
    scale_invariance [⟨1, none, some 12, some 9, some 10⟩] 0 10 (1/5) 2
      (by norm_num)⟩

/-! ## C6: entry at or after the last bar -/

/-- C6: when every bar's date is at most the entry date (entry at or after the
last bar of the series), the post-entry subsequence is empty and
`simuler_handel` returns the defined zero-return outcome
`(0.0, None, 0.0)` — a value, not an exception. -/
theorem degenerate_entry (df : List Bar) (dato : ℤ) (p pct : ℚ)
    (h : ∀ b ∈ df, b.date ≤ dato) :
    simuler_handel df dato p pct = ⟨some 0, none, some 0⟩ := by
  have hflt : df.filter (fun b => decide (b.date > dato)) = [] :=
    List.filter_eq_nil_iff.mpr (fun b hb => by simpa using not_lt.mpr (h b hb))
  simp [simuler_handel, hflt]

/-- Witness for C6 at a concrete one-bar series with a later entry date. -/
theorem degenerate_entry_witness :
    (∀ b ∈ ([⟨0, none, some 1, some 1, some 1⟩] : List Bar), b.date ≤ 5) ∧
    simuler_handel [⟨0, none, some 1, some 1, some 1⟩] 5 1 (1/2) =
      ⟨some 0, none, some 0⟩ :=
  ⟨by decide, degenerate_entry _ 5 1 (1/2) (by decide)⟩

/-! ## C3: sweep ordering, length and argmax selection -/

/-- Any exit outcome of the walk has a return fraction strictly above −1 when
prices are positive, the entry price is positive and the fraction is below
1. -/
theorem simLoop_gevinst_pos (p pct : ℚ) (hp : 0 < p) (hpc : pct < 1)
    (L : List Bar) :
    ∀ h0 : ℚ, 0 < h0 → (∀ b ∈ L, ∀ h, b.high = some h → 0 < h) →
      ∀ out : Outcome, simLoop p pct L h0 = some out →
        ∃ g, out.gevinstPct = some g ∧ -1 < g := by
  induction L with
  | nil => intro h0 _ _ out hout; simp [simLoop] at hout
  | cons b rest ih =>
    intro h0 hh0 hvb out hout
    rcases b with ⟨d, o, hi, lo, cl⟩
    cases hi with
    | none =>
      rw [simLoop_cons_nanHigh] at hout
      exact ih h0 hh0 (fun b hb => hvb b (List.mem_cons_of_mem _ hb)) out hout
    | some h =>
      have hhpos : 0 < h := hvb _ (List.mem_cons_self _ _) h rfl
      cases lo with
      | none =>
        rw [simLoop_cons_nanLow] at hout
        exact ih h0 hh0 (fun b hb => hvb b (List.mem_cons_of_mem _ hb)) out hout
      | some l =>
        rw [simLoop_cons] at hout
        have hupos : 0 < (if h > h0 then h else h0) := by
          by_cases hgt : h > h0
          · rw [if_pos hgt]; exact hhpos
          · rw [if_neg hgt]; exact hh0
        by_cases htr : l ≤ (if h > h0 then h else h0) * (1 - pct)
        · rw [if_pos htr, Option.some_inj] at hout
          subst hout
          refine ⟨_, rfl, ?_⟩
          have hstop : 0 < (if h > h0 then h else h0) * (1 - pct) :=
            mul_pos hupos (by linarith)
          rw [lt_div_iff₀ hp]
          linarith
        · rw [if_neg htr] at hout
          exact ih _ hupos (fun b hb => hvb b (List.mem_cons_of_mem _ hb))
            out hout

/-- Under the data-model invariants (positive prices, positive entry price,
percent at most 99) every simulated outcome has a numeric return fraction
strictly above −1. -/
theorem gval_pos (df : List Bar) (dato : ℤ) (p : ℚ) (hp : 0 < p)
    (hv : ∀ b ∈ df, ValidBar b) (sl : ℕ) (hsl : sl ≤ 99) :
    ∃ g, gval df dato p sl = some g ∧ -1 < g := by
  have hpct1 : (sl : ℚ) / 100 < 1 := by
    have h99 : (sl : ℚ) ≤ 99 := by exact_mod_cast hsl
    linarith
  have hhigh : ∀ b ∈ df.filter (fun b => decide (b.date > dato)),
      ∀ h, b.high = some h → 0 < h := by
    intro b hb h hh
    obtain ⟨⟨h', hh', hp'⟩, _, _⟩ := hv b (List.mem_of_mem_filter hb)
    rw [hh'] at hh
    cases hh
    exact hp'
  unfold gval simuler_handel
  dsimp only
  cases hgl : (df.filter (fun b => decide (b.date > dato))).getLast? with
  | none => exact ⟨0, rfl, by norm_num⟩
  | some lb =>
    cases hsl' :
        simLoop p ((sl : ℚ) / 100) (df.filter (fun b => decide (b.date > dato)))
          p with
    | some out =>
      exact simLoop_gevinst_pos p _ hp hpct1 _ p hp hhigh out hsl'
    | none =>
      obtain ⟨_, _, cv, hcv, hcpos⟩ := hv lb (List.mem_of_mem_filter (last_mem hgl))
      refine ⟨(cv - p) / p, ?_, ?_⟩
      · simp [hcv]
      · rw [lt_div_iff₀ hp]; linarith

/-- One sweep iteration appends exactly its `(percent, return * 100)` row. -/
theorem sweepStep_results (df : List Bar) (dato : ℤ) (p : ℚ)
    (st : SweepState) (sl : ℕ) :
    (sweepStep df dato p st sl).results =
      st.results ++ [(sl, (gval df dato p sl).map (fun g => g * 100))] := by
  unfold sweepStep gval
  dsimp only
  cases hg : (simuler_handel df dato p ((sl : ℚ) / 100)).gevinstPct with
  | none => rfl
  | some g => dsimp only; split <;> rfl

/-- The sweep's result rows are the percents in iteration order, each paired
with its simulated return times 100. -/
theorem sweep_results (df : List Bar) (dato : ℤ) (p : ℚ) (L : List ℕ) :
    ∀ st : SweepState, (L.foldl (sweepStep df dato p) st).results =
      st.results ++
        L.map (fun sl => (sl, (gval df dato p sl).map (fun g => g * 100))) := by
  induction L with
  | nil => intro st; simp
  | cons sl L ih =>
    intro st
    rw [List.foldl_cons, ih, sweepStep_results]
    simp

/-- A strictly better return updates the best pair to the current percent. -/
theorem sweepStep_best_gt (df : List Bar) (dato : ℤ) (p : ℚ)
    (st : SweepState) (sl : ℕ) (g : ℚ) (hg : gval df dato p sl = some g)
    (hgt : st.bestGevinst < g) :
    (sweepStep df dato p st sl).bestGevinst = g ∧
    (sweepStep df dato p st sl).bestSl = sl := by
  unfold gval at hg
  unfold sweepStep
  dsimp only
  rw [hg]
  dsimp only
  rw [if_pos hgt]
  exact ⟨rfl, rfl⟩

/-- A return not exceeding the running best leaves the best pair unchanged. -/
theorem sweepStep_best_le (df : List Bar) (dato : ℤ) (p : ℚ)
    (st : SweepState) (sl : ℕ) (g : ℚ) (hg : gval df dato p sl = some g)
    (hle : g ≤ st.bestGevinst) :
    (sweepStep df dato p st sl).bestGevinst = st.bestGevinst ∧
    (sweepStep df dato p st sl).bestSl = st.bestSl := by
  unfold gval at hg
  unfold sweepStep
  dsimp only
  rw [hg]
  dsimp only
  rw [if_neg (not_lt.mpr hle)]
  exact ⟨rfl, rfl⟩

/-- Argmax invariant of the sweep fold over an ascending percent range: the
final best return is a realized return, its percent lies in the range, no
percent beats it, and on exact ties the selected percent is the smallest. -/
theorem sweep_sel (df : List Bar) (dato : ℤ) (p : ℚ) (lo : ℕ) :
    ∀ (n : ℕ) (m : SweepState), 0 < n →
      m = (List.range' lo n).foldl (sweepStep df dato p) initSweep →
      (∀ sl ∈ List.range' lo n, ∃ g, gval df dato p sl = some g ∧ -1 < g) →
      gval df dato p m.bestSl = some m.bestGevinst ∧
      m.bestSl ∈ List.range' lo n ∧
      (∀ sl ∈ List.range' lo n, ∀ g, gval df dato p sl = some g →
        g ≤ m.bestGevinst) ∧
      (∀ sl ∈ List.range' lo n, gval df dato p sl = some m.bestGevinst →
        m.bestSl ≤ sl) := by
  intro n
  induction n with
  | zero => intro m h0; exact absurd h0 (lt_irrefl 0)
  | succ n ih =>
    intro m hpos hm H
    rcases Nat.eq_zero_or_pos n with hn0 | hnpos
    · subst hn0
      rw [show List.range' lo 1 = [lo] from rfl] at hm H ⊢
      rw [List.foldl_cons, List.foldl_nil] at hm
      obtain ⟨g, hg, hgm1⟩ := H lo (List.mem_singleton_self lo)
      have hgt : initSweep.bestGevinst < g := by
        show (-100 : ℚ) < g
        linarith
      obtain ⟨hbg, hbs⟩ := sweepStep_best_gt df dato p initSweep lo g hg hgt
      subst hm
      refine ⟨by rw [hbs, hbg]; exact hg, by rw [hbs]; exact List.mem_singleton_self lo,
        ?_, ?_⟩
      · intro sl hsl g' hg'
        rw [List.mem_singleton] at hsl
        subst hsl
        rw [hg, Option.some_inj] at hg'
        subst hg'
        exact hbg.ge
      · intro sl hsl _
        rw [List.mem_singleton] at hsl
        subst hsl
        rw [hbs]
    · have hm' : m = sweepStep df dato p
          ((List.range' lo n).foldl (sweepStep df dato p) initSweep) (lo + n) := by
        rw [hm, List.range'_1_concat, List.foldl_concat]
      set prev := (List.range' lo n).foldl (sweepStep df dato p) initSweep
        with hprev
      obtain ⟨ih1, ih2, ih3, ih4⟩ := ih prev hnpos rfl
        (fun sl hsl => H sl (by
          rw [List.range'_1_concat]
          exact List.mem_append_left _ hsl))
      obtain ⟨gn, hgn, _⟩ := H (lo + n) (by
        rw [List.range'_1_concat]
        exact List.mem_append_right _ (List.mem_singleton_self _))
      by_cases hcmp : prev.bestGevinst < gn
      · obtain ⟨hbg, hbs⟩ := sweepStep_best_gt df dato p prev (lo + n) gn hgn hcmp
        have hmg : m.bestGevinst = gn := by rw [hm']; exact hbg
        have hms : m.bestSl = lo + n := by rw [hm']; exact hbs
        refine ⟨by rw [hms, hmg]; exact hgn, ?_, ?_, ?_⟩
        · rw [hms, List.range'_1_concat]
          exact List.mem_append_right _ (List.mem_singleton_self _)
        · intro sl hsl g hg
          rw [List.range'_1_concat, List.mem_append] at hsl
          rcases hsl with hsl | hsl
          · have hle := ih3 sl hsl g hg
            rw [hmg]
            linarith
          · rw [List.mem_singleton] at hsl
            subst hsl
            rw [hgn, Option.some_inj] at hg
            subst hg
            exact hmg.ge
        · intro sl hsl hg
          rw [List.range'_1_concat, List.mem_append] at hsl
          rcases hsl with hsl | hsl
          · have hle := ih3 sl hsl m.bestGevinst hg
            rw [hmg] at hle
            linarith
          · rw [List.mem_singleton] at hsl
            subst hsl
            rw [hms]
      · have hlegn : gn ≤ prev.bestGevinst := not_lt.mp hcmp
        obtain ⟨hbg, hbs⟩ := sweepStep_best_le df dato p prev (lo + n) gn hgn hlegn
        have hmg : m.bestGevinst = prev.bestGevinst := by rw [hm']; exact hbg
        have hms : m.bestSl = prev.bestSl := by rw [hm']; exact hbs
        refine ⟨by rw [hms, hmg]; exact ih1, ?_, ?_, ?_⟩
        · rw [hms, List.range'_1_concat]
          exact List.mem_append_left _ ih2
        · intro sl hsl g hg
          rw [List.range'_1_concat, List.mem_append] at hsl
          rcases hsl with hsl | hsl
          · rw [hmg]; exact ih3 sl hsl g hg
          · rw [List.mem_singleton] at hsl
            subst hsl
            rw [hgn, Option.some_inj] at hg
            subst hg
            rw [hmg]
            exact hlegn
        · intro sl hsl hg
          rw [List.range'_1_concat, List.mem_append] at hsl
          rcases hsl with hsl | hsl
          · rw [hms]
            exact ih4 sl hsl (by rw [← hmg]; exact hg)
          · rw [List.mem_singleton] at hsl
            subst hsl
            rw [hms]
            have hlt := (List.mem_range'_1.mp ih2).2
            omega

/-- C3: for a valid percent range `lo ≤ hi ≤ 99`, a positive entry price and
a series of valid bars, the sweep's result table lists exactly the percents
`lo..hi` in ascending order (hence `hi - lo + 1` rows), and the selected best
percent realizes the maximal simulated return, the smallest such percent
winning exact ties (strict `>` comparison, first seen wins). -/
theorem sweep_correct (df : List Bar) (dato : ℤ) (p : ℚ) (lo hi : ℕ)
    (hlh : lo ≤ hi) (hhi : hi ≤ 99) (hp : 0 < p)
    (hv : ∀ b ∈ df, ValidBar b) :
    (sweep df dato p lo hi).results.map Prod.fst =
      List.range' lo (hi + 1 - lo) ∧
    (sweep df dato p lo hi).results.length = hi - lo + 1 ∧
    gval df dato p (sweep df dato p lo hi).bestSl =
      some (sweep df dato p lo hi).bestGevinst ∧
    (sweep df dato p lo hi).bestSl ∈ List.range' lo (hi + 1 - lo) ∧
    (∀ sl ∈ List.range' lo (hi + 1 - lo), ∀ g, gval df dato p sl = some g →
      g ≤ (sweep df dato p lo hi).bestGevinst) ∧
    (∀ sl ∈ List.range' lo (hi + 1 - lo),
      gval df dato p sl = some (sweep df dato p lo hi).bestGevinst →
      (sweep df dato p lo hi).bestSl ≤ sl) := by
  have hres : (sweep df dato p lo hi).results =
      (List.range' lo (hi + 1 - lo)).map
        (fun sl => (sl, (gval df dato p sl).map (fun g => g * 100))) := by
    unfold sweep
    rw [sweep_results]
    rfl
  have hnpos : 0 < hi + 1 - lo := by omega
  have H : ∀ sl ∈ List.range' lo (hi + 1 - lo),
      ∃ g, gval df dato p sl = some g ∧ -1 < g := by
    intro sl hsl
    have hb := (List.mem_range'_1.mp hsl).2
    exact gval_pos df dato p hp hv sl (by omega)
  obtain ⟨h1, h2, h3, h4⟩ :=
    sweep_sel df dato p lo (hi + 1 - lo) (sweep df dato p lo hi) hnpos rfl H
  refine ⟨?_, ?_, h1, h2, h3, h4⟩
  · rw [hres, List.map_map]
    exact List.map_id _
  · rw [hres, List.length_map, List.length_range']
    omega

/-- Witness for C3 at a one-bar series and the range `[1, 2]`. -/
theorem sweep_correct_witness :
    (sweep [⟨1, none, some 12, some 9, some 10⟩] 0 10 1 2).results.map
        Prod.fst = List.range' 1 (2 + 1 - 1) ∧
    (sweep [⟨1, none, some 12, some 9, some 10⟩] 0 10 1 2).results.length =
      2 - 1 + 1 ∧
    gval [⟨1, none, some 12, some 9, some 10⟩] 0 10
        (sweep [⟨1, none, some 12, some 9, some 10⟩] 0 10 1 2).bestSl =
      some (sweep [⟨1, none, some 12, some 9, some 10⟩] 0 10 1 2).bestGevinst ∧
    (sweep [⟨1, none, some 12, some 9, some 10⟩] 0 10 1 2).bestSl ∈
      List.range' 1 (2 + 1 - 1) ∧
    (∀ sl ∈ List.range' 1 (2 + 1 - 1), ∀ g,
      gval [⟨1, none, some 12, some 9, some 10⟩] 0 10 sl = some g →
      g ≤ (sweep [⟨1, none, some 12, some 9, some 10⟩] 0 10 1 2).bestGevinst) ∧
    (∀ sl ∈ List.range' 1 (2 + 1 - 1),
      gval [⟨1, none, some 12, some 9, some 10⟩] 0 10 sl =
        some (sweep [⟨1, none, some 12, some 9, some 10⟩] 0 10 1 2).bestGevinst →
      (sweep [⟨1, none, some 12, some 9, some 10⟩] 0 10 1 2).bestSl ≤ sl) :=
  sweep_correct [⟨1, none, some 12, some 9, some 10⟩] 0 10 1 2
    (by norm_num) (by norm_num) (by norm_num)
    (by
      intro b hb
      rw [List.mem_singleton] at hb
      subst hb
      exact ⟨⟨12, rfl, by norm_num⟩, ⟨9, rfl, by norm_num⟩,
        ⟨10, rfl, by norm_num⟩⟩)

/-! ## C7: empty percent range -/

/-- C7: a percent range with `lo > hi` makes `range(r_start, r_end + 1)`
empty, so the sweep terminates normally in its initial state: no result rows
and no best value. -/
theorem empty_sweep_range (df : List Bar) (dato : ℤ) (p : ℚ) (lo hi : ℕ)
    (h : hi < lo) :
    sweep df dato p lo hi = initSweep ∧ (sweep df dato p lo hi).results = [] ∧
    (sweep df dato p lo hi).bestSalgsDato = none := by
  have h0 : hi + 1 - lo = 0 := by omega
  have hsw : sweep df dato p lo hi = initSweep := by
    simp [sweep, h0, List.range']
  exact ⟨hsw, by rw [hsw]; rfl, by rw [hsw]; rfl⟩

/-- Witness for C7 at the concrete inverted range `[5, 3]`. -/
theorem empty_sweep_range_witness :
    (3 : ℕ) < 5 ∧
    (sweep [] 0 1 5 3 = initSweep ∧ (sweep [] 0 1 5 3).results = [] ∧
      (sweep [] 0 1 5 3).bestSalgsDato = none) :=
  ⟨by decide, empty_sweep_range [] 0 1 5 3 (by decide)⟩

/-! ## C9: chart stop-line reconstruction versus the simulator -/

/-- Unfolding equation of `simStops` on a NaN-`High` bar. -/
theorem simStops_cons_nanHigh (pct h0 : ℚ) (d : ℤ) (o lo cl : Option ℚ)
    (rest : List Bar) :
    simStops pct (⟨d, o, none, lo, cl⟩ :: rest) h0 = simStops pct rest h0 := by
  cases lo <;> rfl

/-- Unfolding equation of `simStops` on a NaN-`Low` bar. -/
theorem simStops_cons_nanLow (pct h0 : ℚ) (d : ℤ) (o hi cl : Option ℚ)
    (rest : List Bar) :
    simStops pct (⟨d, o, hi, none, cl⟩ :: rest) h0 = simStops pct rest h0 := by
  cases hi <;> rfl

/-- Unfolding equation of `simStops` on a numeric bar. -/
theorem simStops_cons (pct h0 : ℚ) (d : ℤ) (o cl : Option ℚ) (h l : ℚ)
    (rest : List Bar) :
    simStops pct (⟨d, o, some h, some l, cl⟩ :: rest) h0 =
      if l ≤ (if h > h0 then h else h0) * (1 - pct) then
        [(d, (if h > h0 then h else h0) * (1 - pct))]
      else
        (d, (if h > h0 then h else h0) * (1 - pct)) ::
          simStops pct rest (if h > h0 then h else h0) := rfl

/-- Unfolding equation of `slLineLoop` on any leading bar. -/
theorem slLineLoop_cons_eq (sl : ℕ) (dato : ℤ) (b : Bar) (rest : List Bar)
    (h0 : ℚ) :
    slLineLoop sl dato (b :: rest) h0 =
      if b.date < dato then none :: slLineLoop sl dato rest h0
      else
        match b.high with
        | none => none :: slLineLoop sl dato rest h0
        | some h =>
          some ((if h > h0 then h else h0) * (1 - (sl : ℚ) / 100)) ::
            slLineLoop sl dato rest (if h > h0 then h else h0) := rfl

/-- Unfolding equation of `slLineLoop` on a bar before the entry date. -/
theorem slLineLoop_cons_before (sl : ℕ) (dato : ℤ) (h0 : ℚ) (b : Bar)
    (rest : List Bar) (hb : b.date < dato) :
    slLineLoop sl dato (b :: rest) h0 = none :: slLineLoop sl dato rest h0 := by
  rw [slLineLoop_cons_eq, if_pos hb]

/-- Unfolding equation of `slLineLoop` on an entry-or-later bar with NaN
`High`. -/
theorem slLineLoop_cons_nanHigh (sl : ℕ) (dato : ℤ) (h0 : ℚ) (bd : ℤ)
    (bo blo bcl : Option ℚ) (rest : List Bar) (hb : ¬ bd < dato) :
    slLineLoop sl dato (⟨bd, bo, none, blo, bcl⟩ :: rest) h0 =
      none :: slLineLoop sl dato rest h0 := by
  rw [slLineLoop_cons_eq, if_neg hb]

/-- Unfolding equation of `slLineLoop` on an entry-or-later bar with numeric
`High` (its `Low` is not consulted). -/
theorem slLineLoop_cons_some (sl : ℕ) (dato : ℤ) (h0 : ℚ) (bd : ℤ)
    (bo blo bcl : Option ℚ) (h : ℚ) (rest : List Bar) (hb : ¬ bd < dato) :
    slLineLoop sl dato (⟨bd, bo, some h, blo, bcl⟩ :: rest) h0 =
      some ((if h > h0 then h else h0) * (1 - (sl : ℚ) / 100)) ::
        slLineLoop sl dato rest (if h > h0 then h else h0) := by
  rw [slLineLoop_cons_eq, if_neg hb]

/-- Every date of a simulator stop entry is the date of a bar of the walked
list. -/
theorem simStops_dates (pct : ℚ) (L : List Bar) :
    ∀ h0 : ℚ, ∀ q ∈ simStops pct L h0, ∃ b ∈ L, q.1 = b.date := by
  induction L with
  | nil => intro h0 q hq; simp [simStops] at hq
  | cons b rest ih =>
    intro h0 q hq
    rcases b with ⟨d, o, hi, lo, cl⟩
    cases hi with
    | none =>
      rw [simStops_cons_nanHigh] at hq
      obtain ⟨b', hb', he⟩ := ih h0 q hq
      exact ⟨b', List.mem_cons_of_mem _ hb', he⟩
    | some h =>
      cases lo with
      | none =>
        rw [simStops_cons_nanLow] at hq
        obtain ⟨b', hb', he⟩ := ih h0 q hq
        exact ⟨b', List.mem_cons_of_mem _ hb', he⟩
      | some l =>
        rw [simStops_cons] at hq
        by_cases htr : l ≤ (if h > h0 then h else h0) * (1 - pct)
        · rw [if_pos htr, List.mem_singleton] at hq
          subst hq
          exact ⟨_, List.mem_cons_self _ _, rfl⟩
        · rw [if_neg htr, List.mem_cons] at hq
          rcases hq with rfl | hq
          · exact ⟨_, List.mem_cons_self _ _, rfl⟩
          · obtain ⟨b', hb', he⟩ := ih _ q hq
            exact ⟨b', List.mem_cons_of_mem _ hb', he⟩

/-- Every bar kept by the post-entry filter is dated strictly after the entry
date. -/
theorem filter_date_gt (dato : ℤ) (df : List Bar) :
    ∀ b ∈ df.filter (fun b => decide (b.date > dato)), dato < b.date := by
  intro b hb
  have := (List.mem_filter.mp hb).2
  exact of_decide_eq_true this

/-- Core induction for the amended C9: starting from a common running high at
least the entry price, on a strictly date-sorted list whose entry-date bars
cannot raise the running high and whose post-entry bars have numeric lows
whenever they have numeric highs, the chart line agrees with the simulator's
stop level on every bar the simulator processes. -/
theorem recon_loop_agrees (sl : ℕ) (dato : ℤ) (pris : ℚ) :
    ∀ (df : List Bar) (hoyeste : ℚ), pris ≤ hoyeste →
      List.Pairwise (fun a b : Bar => a.date < b.date) df →
      (∀ b ∈ df, b.date = dato → ∀ h, b.high = some h → h ≤ pris) →
      (∀ b ∈ df, dato < b.date → ∀ h, b.high = some h → ∃ l, b.low = some l) →
      ∀ pr ∈ List.zip df (slLineLoop sl dato df hoyeste),
        ∀ q ∈ simStops ((sl : ℚ) / 100)
            (df.filter (fun b => decide (b.date > dato))) hoyeste,
          pr.1.date = q.1 → pr.2 = some q.2 := by
  intro df
  induction df with
  | nil => intro hoyeste _ _ _ _ pr hpr; simp at hpr
  | cons b rest ih =>
    intro hoyeste hph hsort hentry hlow pr hpr q hq hdate
    obtain ⟨hbrest, hsort'⟩ := List.pairwise_cons.mp hsort
    have hentry' := fun b' hb' => hentry b' (List.mem_cons_of_mem _ hb')
    have hlow' := fun b' hb' => hlow b' (List.mem_cons_of_mem _ hb')
    rcases b with ⟨bd, bo, bhi, blo, bcl⟩
    rcases lt_trichotomy bd dato with hlt | heq | hgt
    · -- bar strictly before the entry date: skipped by both walks
      rw [List.filter_cons_of_neg
        (by simpa using not_lt.mpr (le_of_lt hlt))] at hq
      rw [slLineLoop_cons_before sl dato hoyeste _ rest hlt,
        List.zip_cons_cons, List.mem_cons] at hpr
      rcases hpr with rfl | hpr
      · obtain ⟨b', hb', he⟩ := simStops_dates _ _ _ q hq
        have hgt' := filter_date_gt dato rest b' hb'
        rw [he] at hdate
        exact absurd hdate (by
          show ¬ (bd = b'.date)
          intro hcon
          rw [hcon] at hlt
          exact absurd (hlt.trans hgt') (lt_irrefl _))
      · exact ih hoyeste hph hsort' hentry' hlow' pr hpr q hq hdate
    · -- bar dated exactly at the entry: processed only by the chart line,
      -- but its high cannot raise the running high
      rw [List.filter_cons_of_neg
        (by simpa using not_lt.mpr (le_of_eq heq))] at hq
      have hnlt : ¬ bd < dato := by rw [heq]; exact lt_irrefl _
      have hne : ∀ y : Option ℚ, pr = ((⟨bd, bo, bhi, blo, bcl⟩ : Bar), y) →
          pr.2 = some q.2 := by
        intro y hy
        obtain ⟨b', hb', he⟩ := simStops_dates _ _ _ q hq
        have hgt' := filter_date_gt dato rest b' hb'
        rw [hy] at hdate
        dsimp only at hdate
        rw [he] at hdate
        rw [heq] at hdate
        rw [← hdate] at hgt'
        exact absurd hgt' (lt_irrefl _)
      cases bhi with
      | none =>
        rw [slLineLoop_cons_nanHigh sl dato hoyeste bd bo blo bcl rest hnlt,
          List.zip_cons_cons, List.mem_cons] at hpr
        rcases hpr with hh | hpr
        · exact hne _ hh
        · exact ih hoyeste hph hsort' hentry' hlow' pr hpr q hq hdate
      | some h =>
        have hle : h ≤ pris := hentry _ (List.mem_cons_self _ _) heq h rfl
        have hupd : (if h > hoyeste then h else hoyeste) = hoyeste :=
          if_neg (not_lt.mpr (hle.trans hph))
        rw [slLineLoop_cons_some sl dato hoyeste bd bo blo bcl h rest hnlt,
          hupd, List.zip_cons_cons, List.mem_cons] at hpr
        rcases hpr with hh | hpr
        · exact hne _ hh
        · exact ih hoyeste hph hsort' hentry' hlow' pr hpr q hq hdate
    · -- post-entry bar: processed by both walks
      rw [List.filter_cons_of_pos (by simpa using hgt)] at hq
      have hnlt : ¬ bd < dato := not_lt.mpr (le_of_lt hgt)
      cases bhi with
      | none =>
        rw [simStops_cons_nanHigh] at hq
        rw [slLineLoop_cons_nanHigh sl dato hoyeste bd bo blo bcl rest hnlt,
          List.zip_cons_cons, List.mem_cons] at hpr
        rcases hpr with rfl | hpr
        · obtain ⟨b', hb', he⟩ := simStops_dates _ _ _ q hq
          have hbd := hbrest b' (List.mem_of_mem_filter hb')
          dsimp only at hdate
          rw [he] at hdate
          rw [← hdate] at hbd
          exact absurd hbd (lt_irrefl _)
        · exact ih hoyeste hph hsort' hentry' hlow' pr hpr q hq hdate
      | some h =>
        obtain ⟨l, rfl⟩ :=
          hlow _ (List.mem_cons_self _ _) hgt h rfl
        rw [simStops_cons] at hq
        rw [slLineLoop_cons_some sl dato hoyeste bd bo (some l) bcl h rest hnlt,
          List.zip_cons_cons, List.mem_cons] at hpr
        have htail_fresh : ∀ pr' ∈ List.zip rest
            (slLineLoop sl dato rest (if h > hoyeste then h else hoyeste)),
            pr'.1.date ≠ bd := by
          intro pr' hpr' hcon
          have hmem := (List.of_mem_zip
            (show (pr'.1, pr'.2) ∈ _ by simpa using hpr')).1
          have := hbrest pr'.1 hmem
          rw [hcon] at this
          exact absurd this (lt_irrefl _)
        by_cases htr : l ≤ (if h > hoyeste then h else hoyeste) *
            (1 - (sl : ℚ) / 100)
        · rw [if_pos htr, List.mem_singleton] at hq
          subst hq
          rcases hpr with rfl | hpr
          · rfl
          · exact absurd hdate (htail_fresh pr hpr)
        · rw [if_neg htr, List.mem_cons] at hq
          rcases hpr with rfl | hpr
          · rcases hq with rfl | hq
            · rfl
            · obtain ⟨b', hb', he⟩ := simStops_dates _ _ _ q hq
              have hbd := hbrest b' (List.mem_of_mem_filter hb')
              dsimp only at hdate
              rw [he] at hdate
              rw [← hdate] at hbd
              exact absurd hbd (lt_irrefl _)
          · rcases hq with rfl | hq
            · exact absurd hdate (htail_fresh pr hpr)
            · exact ih (if h > hoyeste then h else hoyeste)
                (hph.trans (le_update h hoyeste)) hsort' hentry' hlow'
                pr hpr q hq hdate

/-- C9 counterexample: on `reconCx` with entry date 0, entry price 10 and
winning percent 20, the simulator processes the bar dated 1 with stop level 8,
while the reconstructed chart line shows 16 there — the reconstruction also
consumed the entry-date bar's high 20, which the simulator never does. So the
claimed equality of the two trajectories fails as stated. -/
theorem recon_counterexample : ¬ reconAgrees reconCx 0 10 20 := by
  intro hag
  have hsl : slLine reconCx 0 10 20 = [some 16, some 16] := by
    norm_num [slLine, reconCx, slLineLoop]
  have hst : simStops (((20 : ℕ) : ℚ) / 100)
      (reconCx.filter (fun b => decide (b.date > 0))) 10 = [(1, 8)] := by
    norm_num [simStops, reconCx]
  have hmem : ((⟨1, none, some 5, some 5, some 5⟩ : Bar), some (16 : ℚ)) ∈
      List.zip reconCx (slLine reconCx 0 10 20) := by
    rw [hsl]
    simp [reconCx]
  have h1 := hag _ hmem (1, 8) (by rw [hst]; exact List.mem_singleton_self _) rfl
  norm_num at h1

/-- C9 amended: for a strictly date-sorted series in which no bar dated
exactly at the entry date has a high above the entry price and every
post-entry bar with a numeric high also has a numeric low, the reconstructed
chart stop line agrees with the simulator's stop level on every bar the
simulator processes. -/
theorem recon_agrees_amended (df : List Bar) (dato : ℤ) (pris : ℚ) (sl : ℕ)
    (hsort : List.Pairwise (fun a b : Bar => a.date < b.date) df)
    (hentry : ∀ b ∈ df, b.date = dato → ∀ h, b.high = some h → h ≤ pris)
    (hlow : ∀ b ∈ df, dato < b.date → ∀ h, b.high = some h →
      ∃ l, b.low = some l) :
    reconAgrees df dato pris sl := by
  intro pr hpr q hq hdate
  exact recon_loop_agrees sl dato pris df pris le_rfl hsort hentry hlow
    pr hpr q hq hdate

/-- Witness for the amended C9 on a concrete sorted two-bar series whose
entry-date bar does not exceed the entry price. -/
theorem recon_agrees_amended_witness :
    reconAgrees [⟨0, none, some 10, some 9, some 10⟩,
      ⟨1, none, some 12, some 9, some 10⟩] 0 10 20 :=
  recon_agrees_amended _ 0 10 20
    (by
      constructor
      · intro b hb
        rw [List.mem_singleton] at hb
        subst hb
        decide
      · exact List.pairwise_singleton _ _)
    (by
      intro b hb hbd h hh
      rcases List.mem_cons.mp hb with rfl | hb
      · cases hh; norm_num
      · rw [List.mem_singleton] at hb
        subst hb
        exact absurd hbd (by decide))
    (by
      intro b hb _ h hh
      rcases List.mem_cons.mp hb with rfl | hb
      · exact ⟨9, rfl⟩
      · rw [List.mem_singleton] at hb
        subst hb
        exact ⟨9, rfl⟩)

end Trading
